import Mathlib

/-!
Verification development for the High-Value-Links crawler.

Shallow embedding of the repository's core (scraper.py, llm_classifier.py,
database.py, main.py) in Lean 4.

Modelling conventions:
  * Python `float` scores are modelled as exact rationals (ℚ); all score
    literals in the source (0.2, 0.15, 0.25, 0.7, 0.1, 0.5) are short
    decimals, so order comparisons agree with the float code on the inputs
    the claims are about.
  * Python strings are modelled as `String` / `List Char`; the string
    operations the source uses (`in`, `startswith`, `split`, `strip`,
    `replace`, `lower`, regex suffix match) are reimplemented below with
    Python's semantics for the constant separators the source uses.
  * Network effects (HTTP fetching, HTML extraction by BeautifulSoup) are
    abstracted into a finite page graph `Graph` mapping a URL to the list
    of raw links extracted from that page; a URL absent from the graph
    models a failed fetch (all transport strategies exhausted) exactly as
    `_get_page_content` returning None.
  * `datetime.now()` timestamps are not modelled (real time); the
    `timestamp` field is omitted from link records.
-/

-- Batteries marks the rational-arithmetic kernels irreducible; restore the
-- default reducibility locally so that concrete witnesses evaluate by kernel
-- reduction (`decide`).
attribute [local semireducible] Rat.add Rat.mul Rat.inv Rat.sub

/-! ## Python string primitives (over `List Char`) -/

/-- Whitespace characters stripped by Python `str.strip()` (ASCII subset). -/
def isPyWs (c : Char) : Bool :=
  c == ' ' || c == '\t' || c == '\n' || c == '\r' || c == '\x0b' || c == '\x0c'

/-- Python `str.strip()`: drop whitespace from both ends. -/
def pyStrip (s : List Char) : List Char :=
  ((s.dropWhile isPyWs).reverse.dropWhile isPyWs).reverse

/-- Python `str.split(c)` for a single-character separator. -/
def splitChar (c : Char) : List Char → List (List Char)
  | [] => [[]]
  | x :: xs =>
    if x == c then [] :: splitChar c xs
    else
      match splitChar c xs with
      | [] => [[x]]
      | y :: ys => (x :: y) :: ys

/-- Python `str.split(sep)` specialised to the literal separator of
`llm_classifier.py`: the three characters space, dash, space. -/
def splitDash : List Char → List (List Char)
  | ' ' :: '-' :: ' ' :: rest => [] :: splitDash rest
  | x :: xs =>
    match splitDash xs with
    | [] => [[x]]
    | y :: ys => (x :: y) :: ys
  | [] => [[]]

/-- Python `str.replace("Link ", "")`: remove every occurrence of the
five-character token. -/
def removeLinkToken : List Char → List Char
  | 'L' :: 'i' :: 'n' :: 'k' :: ' ' :: rest => removeLinkToken rest
  | x :: xs => x :: removeLinkToken xs
  | [] => []

/-- Python `str.startswith(p)`. -/
def listStartsWith : List Char → List Char → Bool
  | [], _ => true
  | _ :: _, [] => false
  | p :: ps, x :: xs => p == x && listStartsWith ps xs

/-- Python substring containment `needle in hay`. -/
def listContainsSub : List Char → List Char → Bool
  | needle, [] => needle.isEmpty
  | needle, x :: xs => listStartsWith needle (x :: xs) || listContainsSub needle xs

/-- Update the element at index `i` (Python `lst[i] = ...`); out-of-range
indices leave the list unchanged (the source guards the index first). -/
def listUpdate (l : List α) (i : Nat) (f : α → α) : List α :=
  match l, i with
  | [], _ => []
  | x :: xs, 0 => f x :: xs
  | x :: xs, Nat.succ j => x :: listUpdate xs j f

def allDigits (s : List Char) : Bool := s.all (·.isDigit)

def digitsVal (s : List Char) : Nat :=
  s.foldl (fun a c => a * 10 + (c.toNat - 48)) 0

/-- Python `int(s)` on already-built strings: optional sign, decimal digits.
(Underscore digit grouping and non-decimal bases are not modelled; the
classifier's lines carry plain decimal numerals.) -/
def pyInt (s : List Char) : Option Int :=
  let t := pyStrip s
  match t with
  | '-' :: ds =>
    if ds ≠ [] ∧ allDigits ds then some (-(digitsVal ds : Int)) else none
  | '+' :: ds =>
    if ds ≠ [] ∧ allDigits ds then some ((digitsVal ds : Int)) else none
  | ds =>
    if ds ≠ [] ∧ allDigits ds then some ((digitsVal ds : Int)) else none

/-- Python `float(s)` restricted to plain decimal literals
(`[+-]? digits [. digits]`, either part possibly empty but not both);
exponent forms, `inf` and `nan` are not modelled — `inf`/`nan` would be
rejected by the classifier's range check anyway. -/
def pyFloat (s : List Char) : Option ℚ :=
  let t := pyStrip s
  let core : List Char :=
    match t with
    | '-' :: r => r
    | '+' :: r => r
    | r => r
  let sign : ℚ := match t with | '-' :: _ => -1 | _ => 1
  match splitChar '.' core with
  | [ds] =>
    if ds ≠ [] ∧ allDigits ds then some (sign * (digitsVal ds : ℚ)) else none
  | [ip, fp] =>
    if (ip ≠ [] ∨ fp ≠ []) ∧ allDigits ip ∧ allDigits fp then
      some (sign * ((digitsVal ip : ℚ) + (digitsVal fp : ℚ) / (10 ^ fp.length)))
    else none
  | _ => none

/-- Python built-in `max` on two floats (returns the first argument on ties). -/
def pyMax (a b : ℚ) : ℚ := if b ≤ a then a else b

/-- Python built-in `min` on two floats (returns the first argument on ties). -/
def pyMin (a b : ℚ) : ℚ := if a ≤ b then a else b

/-- Python `str.lower()` (ASCII; the source's keywords and URLs are ASCII). -/
def lowerChars (s : String) : List Char := s.toList.map Char.toLower

/-! ## Link records and the scorer (`scraper.py`) -/

/-- A link as extracted by `LinkScraper._extract_links`: absolute URL, anchor
text, enclosing element's text, and the raw href. -/
structure RawLink where
  url : String
  text : String
  context : String
  href : String := ""
deriving DecidableEq, Repr

/-- A link record as it flows through scoring, refinement and persistence.
Python uses one dict throughout; fields stamped later in the pipeline
(`domain`, `path`, `query` at acceptance, `source_url` at save time) default
to `""`, and `llm_reason` is present only after refinement.  The `timestamp`
field (real time) is not modelled. -/
structure Link where
  url : String
  text : String
  context : String
  href : String := ""
  relevance_score : ℚ
  llm_reason : Option String := none
  domain : String := ""
  path : String := ""
  query : String := ""
  source_url : String := ""
deriving DecidableEq, Repr

/-- The document extensions of the regex in
`LinkScraper._calculate_relevance_score`. -/
def docExts : List String :=
  [(".pdf"), (".doc"), (".docx"), (".xls"), (".xlsx"), (".csv")]

/-- `re.search(r'\.(pdf|doc|docx|xls|xlsx|csv)$', url)`: the regex is
anchored at the end of the (already lower-cased) URL string, so it holds
exactly when the whole URL string ends with one of the six extensions. -/
def doc_ext_match (u : List Char) : Bool :=
  docExts.any (fun e => e.toList.isSuffixOf u)

/-- The `+0.25` document-extension term of the scorer. -/
def doc_ext_bonus (u : List Char) : ℚ :=
  if doc_ext_match u then 25/100 else 0

/-- `LinkScraper._calculate_relevance_score`: additive keyword / extension /
contact bonuses over the lower-cased `text ++ " " ++ context` and URL,
clamped to [0, 1] by `min(max(score, 0.0), 1.0)`. -/
def calculate_relevance_score (keywords : List String) (link : RawLink) : ℚ :=
  let t := lowerChars (link.text ++ (" ") ++ link.context)
  let u := lowerChars link.url
  let score := keywords.foldl
    (fun acc kw =>
      let k := lowerChars kw
      let acc1 := if listContainsSub k t then acc + 2/10 else acc
      if listContainsSub k u then acc1 + 15/100 else acc1) 0
  let score := score + doc_ext_bonus u
  let score :=
    if listContainsSub (("contact").toList) u ∨ listContainsSub (("contact").toList) t then
      score + 2/10
    else score
  pyMin (pyMax score 0) 1

/-- Stable insertion of a link into a list sorted by descending score: a link
is placed after every earlier link of greater-or-equal score. -/
def insert_desc (l : Link) : List Link → List Link
  | [] => [l]
  | x :: xs =>
    if decide (x.relevance_score < l.relevance_score) then l :: x :: xs
    else x :: insert_desc l xs

/-- Python `sorted(links, key=..., reverse=True)`: the unique stable
descending-score ordering. -/
def sort_by_score_desc (ls : List Link) : List Link :=
  ls.foldr insert_desc []

/-! ## Relevance refiner response parsing (`llm_classifier.py`) -/

/-- One iteration of the response-parsing loop in
`LLMClassifier._parse_classification_response`: a line is considered only if
it starts with the Link token and contains a colon; the link number is parsed
from the text before the first colon, the score (and optional reason) from
the text between the first and second colons; any parse failure (Python
`ValueError`) skips the line; an update happens only when the 0-based index
is in range and the score lies in [0, 1]. -/
def apply_response_line (links : List Link) (line : List Char) : List Link :=
  if listStartsWith (("Link ").toList) line ∧ line.any (· == ':') then
    let parts := splitChar ':' line
    let link_part := pyStrip (parts.getD 0 [])
    match pyInt (removeLinkToken link_part) with
    | none => links
    | some num =>
      let link_num : Int := num - 1
      let score_part := pyStrip (parts.getD 1 [])
      let score_str :=
        if listContainsSub ((" - ").toList) score_part then
          pyStrip ((splitDash score_part).getD 0 [])
        else pyStrip score_part
      match pyFloat score_str with
      | none => links
      | some score =>
        if 0 ≤ link_num ∧ link_num < (links.length : Int) ∧ 0 ≤ score ∧ score ≤ 1 then
          let i := link_num.toNat
          let links1 := listUpdate links i (fun l => { l with relevance_score := score })
          if listContainsSub ((" - ").toList) score_part then
            let reason := pyStrip ((splitDash score_part).getD 1 [])
            listUpdate links1 i (fun l => { l with llm_reason := some (String.mk reason) })
          else links1
        else links
  else links

/-- `LLMClassifier._parse_classification_response`: the response text is
stripped, split on newlines, and each line applied in order to the copied
batch. -/
def parse_classification_response (original_links : List Link) (response : List Char) :
    List Link :=
  (splitChar '\n' (pyStrip response)).foldl apply_response_line original_links

/-! ## URL splitting (`urllib.parse.urlparse` as used by `main.py`) -/

/-- Position after the first scheme separator, if any. -/
def afterSchemeSep : List Char → Option (List Char)
  | ':' :: '/' :: '/' :: rest => some rest
  | _ :: xs => afterSchemeSep xs
  | [] => none

/-- `urllib.parse.urlparse(url)` restricted to the components `main.py`
uses — `(netloc, path, query)` — for absolute `http(s)` URLs (and, for URLs
without a scheme separator, an empty netloc). -/
def url_split (url : String) : String × String × String :=
  let chars := url.toList
  match afterSchemeSep chars with
  | some rest =>
    let netloc := rest.takeWhile (fun c => ¬ (c == '/' || c == '?' || c == '#'))
    let after := rest.drop netloc.length
    let path := after.takeWhile (fun c => ¬ (c == '?' || c == '#'))
    let query : List Char :=
      match after.drop path.length with
      | '?' :: q => q.takeWhile (fun c => ¬ (c == '#'))
      | _ => []
    (String.mk netloc, String.mk path, String.mk query)
  | none =>
    let path := chars.takeWhile (fun c => ¬ (c == '?' || c == '#'))
    let query : List Char :=
      match chars.drop path.length with
      | '?' :: q => q.takeWhile (fun c => ¬ (c == '#'))
      | _ => []
    ((""), String.mk path, String.mk query)

/-! ## Link store (`database.py`) -/

/-- A field value in a stored record: the records the crawler stores carry
string and float fields.  (Python would raise `TypeError` on an order
comparison between mismatched types; the claims only exercise same-typed
comparisons, and mismatched comparisons are modelled as `false`.) -/
inductive Val where
  | s (v : String)
  | q (v : ℚ)
deriving DecidableEq, Repr

def Val.ltb : Val → Val → Bool
  | Val.q a, Val.q b => decide (a < b)
  | Val.s a, Val.s b => decide (a < b)
  | _, _ => false

def Val.leb : Val → Val → Bool
  | Val.q a, Val.q b => decide (a ≤ b)
  | Val.s a, Val.s b => decide (a ≤ b)
  | _, _ => false

/-- Dictionary-style field access on a stored record (`key in link` /
`link[key]`): `llm_reason` is the one field that can be absent; unknown keys
are absent. -/
def field? (r : Link) (k : String) : Option Val :=
  if k = ("url") then some (Val.s r.url)
  else if k = ("text") then some (Val.s r.text)
  else if k = ("context") then some (Val.s r.context)
  else if k = ("href") then some (Val.s r.href)
  else if k = ("relevance_score") then some (Val.q r.relevance_score)
  else if k = ("llm_reason") then r.llm_reason.map Val.s
  else if k = ("source_url") then some (Val.s r.source_url)
  else if k = ("domain") then some (Val.s r.domain)
  else if k = ("path") then some (Val.s r.path)
  else if k = ("query") then some (Val.s r.query)
  else none

/-- One filter condition: an exact-match value, or a dict of comparison
operators (as in the Mongo-style filters the API layer builds). -/
inductive Cond where
  | eqv (v : Val)
  | ops (os : List (String × Val))
deriving DecidableEq, Repr

/-- A filter: dict from field name to condition. -/
abbrev LinkFilter := List (String × Cond)

/-- One operator step of the keep-if-matching loop in
`LinkDatabase._filter_in_memory_links`: `link[key] OP value`, requiring the
key to be present; unrecognised operators filter nothing. -/
def apply_op_in (links : List Link) (k : String) (op : String) (v : Val) : List Link :=
  if op = ("$gt") then
    links.filter (fun l => match field? l k with | some x => Val.ltb v x | none => false)
  else if op = ("$gte") then
    links.filter (fun l => match field? l k with | some x => Val.leb v x | none => false)
  else if op = ("$lt") then
    links.filter (fun l => match field? l k with | some x => Val.ltb x v | none => false)
  else if op = ("$lte") then
    links.filter (fun l => match field? l k with | some x => Val.leb x v | none => false)
  else links

def apply_cond_in (links : List Link) (k : String) : Cond → List Link
  | Cond.eqv v => links.filter (fun l => decide (field? l k = some v))
  | Cond.ops os => os.foldl (fun acc ov => apply_op_in acc k ov.1 ov.2) links

/-- The filtering stage of `LinkDatabase._filter_in_memory_links`: each
filter key narrows the list in turn (implicit AND across keys).  (The
sorting and pagination stages of `get_links` are not modelled; `get_link_count`
counts this filtered list.) -/
def filter_in_match (links : List Link) (fp : LinkFilter) : List Link :=
  fp.foldl (fun acc kc => apply_cond_in acc kc.1 kc.2) links

/-- `LinkDatabase.get_link_count` on the in-memory backing:
`len(self._filter_in_memory_links(filter_params, [], 999999, 0))`. -/
def get_link_count (links : List Link) (fp : LinkFilter) : Nat :=
  ((filter_in_match links fp).take 999999).length

/-- One operator step of the keep-if-NOT-matching loop in
`LinkDatabase._filter_out_in_memory_links`: keep a link when the key is
absent or the comparison fails. -/
def apply_op_out (links : List Link) (k : String) (op : String) (v : Val) : List Link :=
  if op = ("$gt") then
    links.filter (fun l => match field? l k with | some x => Val.leb x v | none => true)
  else if op = ("$gte") then
    links.filter (fun l => match field? l k with | some x => Val.ltb x v | none => true)
  else if op = ("$lt") then
    links.filter (fun l => match field? l k with | some x => Val.leb v x | none => true)
  else if op = ("$lte") then
    links.filter (fun l => match field? l k with | some x => Val.ltb v x | none => true)
  else links

def apply_cond_out (links : List Link) (k : String) : Cond → List Link
  | Cond.eqv v => links.filter (fun l => decide (field? l k ≠ some v))
  | Cond.ops os => os.foldl (fun acc ov => apply_op_out acc k ov.1 ov.2) links

/-- `LinkDatabase._filter_out_in_memory_links`: each filter key in turn
removes the links matching that one condition from the running list. -/
def filter_out_in_memory_links (links : List Link) (fp : LinkFilter) : List Link :=
  fp.foldl (fun acc kc => apply_cond_out acc kc.1 kc.2) links

/-- `LinkDatabase.delete_links` on the in-memory backing: an empty filter is
a no-op; otherwise the deleted count is the length difference against the
filtered-out remainder.  Returns (deleted count, remaining store). -/
def delete_links (links : List Link) (fp : LinkFilter) : Nat × List Link :=
  if fp.isEmpty then (0, links)
  else
    let remaining := filter_out_in_memory_links links fp
    (links.length - remaining.length, remaining)

/-- Which backing `save_links` runs against. -/
inductive Backing where
  | mongo
  | inMemory
deriving DecidableEq, Repr

/-- MongoDB `$set`-semantics of one `UpdateOne({"url": ...}, {"$set": link},
upsert=True)` applied to a matched record: every field present in the link
dict overwrites the stored one; `llm_reason` is the only field that can be
absent from the incoming dict, in which case the stored value survives. -/
def set_fields (new old : Link) : Link :=
  { new with
    llm_reason := match new.llm_reason with
      | some r => some r
      | none => old.llm_reason }

/-- One `UpdateOne(..., upsert=True)` of the bulk write in
`LinkDatabase.save_links`: update the first record whose `url` matches,
else insert the new record at the end. -/
def upsert_one (store : List Link) (l : Link) : List Link :=
  match store with
  | [] => [l]
  | r :: rs => if r.url = l.url then set_fields l r :: rs else r :: upsert_one rs l

/-- `LinkDatabase.save_links`: stamp every link with `source_url`, then
either bulk-upsert (network-backed store) or append (`_in_memory_links.extend`,
in-memory backing).  Returns the updated store. -/
def save_links (backing : Backing) (store : List Link) (links : List Link)
    (source_url : String) : List Link :=
  if links.isEmpty then store
  else
    let stamped := links.map (fun l => { l with source_url := source_url })
    match backing with
    | Backing.mongo => stamped.foldl upsert_one store
    | Backing.inMemory => store ++ stamped

/-! ## Crawl orchestrator (`main.py` + `LinkScraper.scrape`) -/

/-- The reachable link graph: each page URL maps to the raw links extracted
from its markup.  A URL with no entry models a page whose fetch fails (or
whose markup yields nothing) — `scrape` then returns zero links. -/
abbrev Graph := List (String × List RawLink)

def fetch_page (G : Graph) (url : String) : Option (List RawLink) :=
  (G.find? (fun p => p.1 == url)).map (fun p => p.2)

/-- The configuration of a `ScraperManager` (and the `LinkScraper` it owns:
`max_depth` is passed through to the scraper). -/
structure Config where
  keywords : List String
  max_depth : Nat
  min_score_threshold : ℚ
  max_links_per_page : Nat
  use_llm : Bool
  backing : Backing

/-- The mutable state one recursive run reads and writes: the scraper
instance's `visited_urls`, the run-local `processed_urls` and
`total_high_value_links` of `process_url_recursively`, the link store, and
an instrumentation log appending one entry per call of
`_get_page_content` (one per fetch attempt, successful or not). -/
structure CrawlState where
  scraper_visited : List String
  processed : List String
  total : Nat
  db : List Link
  fetch_log : List String
deriving DecidableEq, Repr

/-- Persistent `ScraperManager` instance state surviving between runs:
the scraper's `visited_urls` set (never cleared) and the link store. -/
structure MgrState where
  scraper_visited : List String
  db : List Link
deriving DecidableEq, Repr

/-- `LinkScraper.scrape`: return no links when the depth bound is exceeded
or the URL was already visited; otherwise record the URL as visited, attempt
the fetch (logged), score each extracted link, and return them sorted by
descending relevance score. -/
def scrape (G : Graph) (cfg : Config) (url : String) (depth : Nat)
    (s : CrawlState) : List Link × CrawlState :=
  if cfg.max_depth < depth ∨ url ∈ s.scraper_visited then ([], s)
  else
    let s1 := { s with scraper_visited := s.scraper_visited ++ [url],
                       fetch_log := s.fetch_log ++ [url] }
    match fetch_page G url with
    | none => ([], s1)
    | some raws =>
      let scored := raws.map (fun r =>
        { url := r.url, text := r.text, context := r.context, href := r.href,
          relevance_score := calculate_relevance_score cfg.keywords r : Link })
      (sort_by_score_desc scored, s1)

/-- `ScraperManager.process_url`: scrape, cap the candidate list at
`max_links_per_page`, optionally refine via the LLM classifier (modelled by
the `refine` parameter — the deterministic function induced by the judging
service's responses), keep links scoring at least `min_score_threshold`,
stamp `domain`/`path`/`query` from the URL, and persist the accepted batch.
Returns the accepted links and the updated state. -/
def process_url (G : Graph) (cfg : Config) (refine : List Link → List Link)
    (url : String) (depth : Nat) (s : CrawlState) : List Link × CrawlState :=
  let res := scrape G cfg url depth s
  let links0 := res.1
  let links1 :=
    if cfg.max_links_per_page < links0.length then links0.take cfg.max_links_per_page
    else links0
  let links2 := if cfg.use_llm ∧ ¬ links1.isEmpty then refine links1 else links1
  let high := links2.filter (fun l => decide (cfg.min_score_threshold ≤ l.relevance_score))
  let high := high.map (fun l =>
    let u := url_split l.url
    { l with domain := u.1, path := u.2.1, query := u.2.2 })
  let s2 :=
    if high.isEmpty then res.2
    else { res.2 with db := save_links cfg.backing res.2.db high url }
  (high, s2)

/-- The nested `_recursive_process` closure of
`ScraperManager.process_url_recursively`, with an explicit fuel argument
making the recursion structural: `none` means the fuel ran out before a
terminal guard was reached (the termination theorem shows this never
happens when the fuel exceeds the remaining depth budget).  A step returns
immediately past the depth bound or on an already-processed URL; otherwise
it marks the URL processed, processes it, adds the accepted count to the
running total, and recurses at `depth + 1` into the accepted links that
clear `max(0.7, min_score_threshold + 0.1)`, capped at 5. -/
def recursive_process (G : Graph) (cfg : Config) (refine : List Link → List Link) :
    Nat → String → Nat → CrawlState → Option CrawlState
  | 0, _, _, _ => none
  | Nat.succ fuel, url, depth, s =>
    if cfg.max_depth < depth ∨ url ∈ s.processed then some s
    else
      let s1 := { s with processed := s.processed ++ [url] }
      let pr := process_url G cfg refine url depth s1
      let s3 := { pr.2 with total := pr.2.total + pr.1.length }
      let follow_threshold : ℚ := pyMax (7/10) (cfg.min_score_threshold + 1/10)
      let to_follow0 := pr.1.filter (fun l => decide (follow_threshold ≤ l.relevance_score))
      let to_follow := if 5 < to_follow0.length then to_follow0.take 5 else to_follow0
      List.foldlM (fun st l => recursive_process G cfg refine fuel l.url (depth + 1) st)
        s3 to_follow

/-- `ScraperManager.process_url_recursively`: a fresh run-local state
(`processed_urls = set()`, zero total, empty fetch log) over the instance's
persistent scraper-visited set and store; the recursion starts at depth 0.
The fuel `max_depth + 2` is sufficient by the termination theorem. -/
def process_url_recursively (G : Graph) (cfg : Config)
    (refine : List Link → List Link) (start : String) (m : MgrState) : CrawlState :=
  let s0 : CrawlState :=
    { scraper_visited := m.scraper_visited, processed := [], total := 0,
      db := m.db, fetch_log := [] }
  (recursive_process G cfg refine (cfg.max_depth + 2) start 0 s0).getD s0

/-- The instance state a run leaves behind for the next run on the same
`ScraperManager`. -/
def mgr_after (s : CrawlState) : MgrState :=
  { scraper_visited := s.scraper_visited, db := s.db }

/-! ## Claim C2: the heuristic score is clamped to [0, 1] -/

lemma pyMin_pyMax_clamp (s : ℚ) :
    0 ≤ pyMin (pyMax s 0) 1 ∧ pyMin (pyMax s 0) 1 ≤ 1 := by
  unfold pyMin pyMax
  split_ifs <;> constructor <;> linarith

/-- Claim C2: for every input link and every configured keyword set, the
heuristic relevance score lies in [0.0, 1.0], however many additive bonuses
fire. -/
theorem claim_C2_score_clamped (keywords : List String) (link : RawLink) :
    0 ≤ calculate_relevance_score keywords link
      ∧ calculate_relevance_score keywords link ≤ 1 := by
  unfold calculate_relevance_score
  exact pyMin_pyMax_clamp _

/-! ## Claim C9: in-memory delete vs the AND filter semantics -/

def c9_record : Link :=
  { url := ("https://a.gov/x"), text := (""), context := (""),
    relevance_score := 8/10, domain := ("a.gov") }

def c9_filter : LinkFilter :=
  [(("domain"), Cond.eqv (Val.s ("b.gov"))),
   (("relevance_score"), Cond.ops [(("$gte"), Val.q (1/2))])]

/-- Claim C9 (code bug): the stored record matches only the score condition,
not the domain condition, so under the AND semantics of the in-memory
query/count filter it matches nothing and should survive deletion — yet the
in-memory delete removes it (it deletes records matching ANY single
condition, contradicting the docstring "inverse of filtering in"). -/
theorem claim_C9_delete_filter_divergence :
    delete_links [c9_record] c9_filter = (1, [])
      ∧ filter_in_match [c9_record] c9_filter = []
      ∧ get_link_count [c9_record] c9_filter = 0 := by
  decide

/-! ## Claims C1 and C7: save/upsert semantics -/

lemma save_links_mongo_singleton (store : List Link) (l : Link) (src : String) :
    save_links Backing.mongo store [l] src =
      upsert_one store { l with source_url := src } := by
  simp [save_links]

lemma set_fields_url (m x : Link) : (set_fields m x).url = m.url := rfl

lemma set_fields_self (m : Link) : set_fields m m = m := by
  obtain ⟨u, t, c, h, sc, re, dm, pa, qu, su⟩ := m
  cases re <;> rfl

lemma set_fields_set_fields (m x : Link) :
    set_fields m (set_fields m x) = set_fields m x := by
  cases h : m.llm_reason <;> simp [set_fields, h]

lemma upsert_one_again (store : List Link) (m : Link) :
    upsert_one (upsert_one store m) m = upsert_one store m := by
  induction store with
  | nil => simp [upsert_one, set_fields_self]
  | cons r0 rs ih =>
    by_cases hr : r0.url = m.url
    · simp only [upsert_one, if_pos hr]
      simp [upsert_one, set_fields_url, set_fields_set_fields, hr]
    · simp only [upsert_one, if_neg hr]
      simp [upsert_one, if_neg hr, ih]

lemma upsert_one_urls (store : List Link) (m : Link) :
    ∀ u ∈ (upsert_one store m).map Link.url,
      u ∈ store.map Link.url ∨ u = m.url := by
  induction store with
  | nil => simp [upsert_one]
  | cons r0 rs ih =>
    by_cases hr : r0.url = m.url
    · simp only [upsert_one, if_pos hr]
      intro u hu
      rw [List.map_cons, List.mem_cons] at hu
      rcases hu with hu | hu
      · exact Or.inr (by rw [hu, set_fields_url])
      · exact Or.inl (by rw [List.map_cons, List.mem_cons]; exact Or.inr hu)
    · simp only [upsert_one, if_neg hr]
      intro u hu
      rw [List.map_cons, List.mem_cons] at hu
      rcases hu with hu | hu
      · exact Or.inl (by rw [List.map_cons, List.mem_cons]; exact Or.inl hu)
      · rcases ih u hu with h | h
        · exact Or.inl (by rw [List.map_cons, List.mem_cons]; exact Or.inr h)
        · exact Or.inr h

lemma upsert_one_nodup (store : List Link) (m : Link)
    (h : (store.map Link.url).Nodup) :
    ((upsert_one store m).map Link.url).Nodup := by
  induction store with
  | nil => simp [upsert_one]
  | cons r0 rs ih =>
    rw [List.map_cons, List.nodup_cons] at h
    by_cases hr : r0.url = m.url
    · simp only [upsert_one, if_pos hr]
      rw [List.map_cons, List.nodup_cons, set_fields_url]
      exact ⟨hr ▸ h.1, h.2⟩
    · simp only [upsert_one, if_neg hr]
      rw [List.map_cons, List.nodup_cons]
      refine ⟨fun hmem => ?_, ih h.2⟩
      rcases upsert_one_urls rs m _ hmem with hu | hu
      · exact h.1 hu
      · exact hr hu

lemma upsert_one_count (store : List Link) (m : Link)
    (h : (store.map Link.url).Nodup) :
    ((upsert_one store m).filter (fun r => decide (r.url = m.url))).length = 1 := by
  induction store with
  | nil => simp [upsert_one]
  | cons r0 rs ih =>
    rw [List.map_cons, List.nodup_cons] at h
    by_cases hr : r0.url = m.url
    · simp only [upsert_one, if_pos hr]
      have hrs : rs.filter (fun r => decide (r.url = m.url)) = [] := by
        rw [List.filter_eq_nil_iff]
        intro r hrmem
        simp only [decide_eq_true_eq]
        intro hru
        exact h.1 (by rw [hr, ← hru]; exact List.mem_map_of_mem _ hrmem)
      simp [List.filter_cons, set_fields_url, hrs]
    · simp only [upsert_one, if_neg hr]
      rw [List.filter_cons]
      simp only [decide_eq_true_eq]
      rw [if_neg hr]
      exact ih h.2

lemma upsert_one_mem_eq (store : List Link) (m : Link)
    (h : (store.map Link.url).Nodup) :
    ∀ r ∈ upsert_one store m, r.url = m.url →
      r = m ∨ ∃ x ∈ store, r = set_fields m x := by
  induction store with
  | nil =>
    intro r hr _
    simp [upsert_one] at hr
    exact Or.inl hr
  | cons r0 rs ih =>
    rw [List.map_cons, List.nodup_cons] at h
    by_cases hr0 : r0.url = m.url
    · simp only [upsert_one, if_pos hr0]
      intro r hmem hru
      rw [List.mem_cons] at hmem
      rcases hmem with hmem | hmem
      · exact Or.inr ⟨r0, List.mem_cons_self r0 rs, hmem⟩
      · exact absurd (by rw [hr0, ← hru]; exact List.mem_map_of_mem _ hmem) h.1
    · simp only [upsert_one, if_neg hr0]
      intro r hmem hru
      rw [List.mem_cons] at hmem
      rcases hmem with hmem | hmem
      · exact absurd (hmem ▸ hru) hr0
      · rcases ih h.2 r hmem hru with h1 | ⟨x, hx, hx2⟩
        · exact Or.inl h1
        · exact Or.inr ⟨x, List.mem_cons_of_mem r0 hx, hx2⟩

/-- Claim C1 (amended, network-backed part): on the network-backed store the
bulk upsert keyed on `url` leaves exactly one record with a given `url`, the
second write's field values win, and saving the same record twice is
idempotent. -/
theorem claim_C1_upsert_mongo (store : List Link) (l1 l2 : Link) (src1 src2 : String)
    (hurl : l2.url = l1.url)
    (hnodup : (store.map Link.url).Nodup) :
    ((save_links Backing.mongo (save_links Backing.mongo store [l1] src1) [l2] src2).filter
        (fun r => decide (r.url = l1.url))).length = 1
    ∧ (∀ r ∈ save_links Backing.mongo (save_links Backing.mongo store [l1] src1) [l2] src2,
        r.url = l1.url →
          r.text = l2.text ∧ r.context = l2.context
            ∧ r.relevance_score = l2.relevance_score ∧ r.source_url = src2)
    ∧ save_links Backing.mongo
        (save_links Backing.mongo (save_links Backing.mongo store [l1] src1) [l2] src2)
        [l2] src2
      = save_links Backing.mongo (save_links Backing.mongo store [l1] src1) [l2] src2 := by
  simp only [← hurl]
  rw [save_links_mongo_singleton, save_links_mongo_singleton, save_links_mongo_singleton]
  have hnd1 : (((upsert_one store { l1 with source_url := src1 }).map Link.url)).Nodup :=
    upsert_one_nodup _ _ hnodup
  refine ⟨?_, ?_, upsert_one_again _ _⟩
  · exact upsert_one_count (upsert_one store { l1 with source_url := src1 })
      { l2 with source_url := src2 } hnd1
  · intro r hmem hru
    have hmm := upsert_one_mem_eq (upsert_one store { l1 with source_url := src1 })
      { l2 with source_url := src2 } hnd1 r hmem hru
    rcases hmm with h1 | ⟨x, hx, hx2⟩
    · rw [h1]
      exact ⟨rfl, rfl, rfl, rfl⟩
    · rw [hx2]
      exact ⟨rfl, rfl, rfl, rfl⟩

def lA : Link :=
  { url := ("https://a.gov/budget.pdf"), text := ("Budget"), context := ("c1"),
    relevance_score := 9/10 }

def lB : Link :=
  { url := ("https://a.gov/budget.pdf"), text := ("Budget 2024"), context := ("c2"),
    relevance_score := 8/10 }

theorem claim_C1_upsert_mongo_witness :
    (lB.url = lA.url ∧ (([] : List Link).map Link.url).Nodup)
    ∧ ((save_links Backing.mongo (save_links Backing.mongo [] [lA] ("https://first.gov"))
          [lB] ("https://second.gov")).filter
            (fun r => decide (r.url = lA.url))).length = 1 :=
  ⟨⟨rfl, List.nodup_nil⟩,
   (claim_C1_upsert_mongo [] lA lB ("https://first.gov") ("https://second.gov")
      rfl List.nodup_nil).1⟩

/-- Claim C1 counterexample: on the in-memory backing, `save_links` merely
extends the list, so saving the very same record twice leaves TWO records
with that `url` — the claimed upsert law fails for the in-memory backing. -/
theorem claim_C1_counterexample_inmemory :
    ((save_links Backing.inMemory
        (save_links Backing.inMemory [] [lA] ("https://p.gov"))
        [lA] ("https://p.gov")).filter
          (fun r => decide (r.url = lA.url))).length = 2 := by
  decide

/-- Claim C7 (amended): the upsert overwrites `source_url` with the page of
the save that wrote it, so a stored record's `source_url` is the page of the
LAST save that contained its `url`, not the first. -/
theorem claim_C7_source_url_last_save (store : List Link) (l : Link) (src : String)
    (hnodup : (store.map Link.url).Nodup) :
    ∀ r ∈ save_links Backing.mongo store [l] src, r.url = l.url → r.source_url = src := by
  rw [save_links_mongo_singleton]
  intro r hmem hru
  have hm : ({ l with source_url := src } : Link).url = l.url := rfl
  have hmm := upsert_one_mem_eq store { l with source_url := src } hnodup r hmem
    (by rw [hm]; exact hru)
  rcases hmm with h1 | ⟨x, hx, hx2⟩
  · rw [h1]
  · rw [hx2]
    rfl

theorem claim_C7_source_url_last_save_witness :
    ((([{ lA with source_url := ("https://first.gov") }] : List Link).map Link.url).Nodup
      ∧ ({ lA with source_url := ("https://second.gov") } : Link)
          ∈ save_links Backing.mongo [{ lA with source_url := ("https://first.gov") }]
              [lA] ("https://second.gov"))
    ∧ ({ lA with source_url := ("https://second.gov") } : Link).source_url
        = ("https://second.gov") :=
  ⟨⟨by decide, by decide⟩,
   claim_C7_source_url_last_save [{ lA with source_url := ("https://first.gov") }] lA
     ("https://second.gov") (by decide)
     { lA with source_url := ("https://second.gov") } (by decide) rfl⟩

/-- Claim C7 counterexample: accepting the same link first from
`https://first.gov` and then from `https://second.gov` leaves the stored
record's `source_url` equal to the SECOND page — the claim that the first
page is kept fails. -/
theorem claim_C7_counterexample :
    (save_links Backing.mongo (save_links Backing.mongo [] [lA] ("https://first.gov"))
        [lA] ("https://second.gov")).map (fun r => r.source_url)
      = [("https://second.gov")]
    ∧ ("https://second.gov") ≠ ("https://first.gov") := by
  decide

/-! ## Claim C8: the document-extension bonus tests the whole URL string -/

lemma doc_ext_match_iff (u : List Char) :
    doc_ext_match u = true ↔ ∃ e ∈ docExts, e.toList <:+ u := by
  simp [doc_ext_match, List.any_eq_true]

/-- Claim C8 (amended): the `+0.25` bonus fires exactly when the entire
lower-cased URL STRING ends with one of the six document extensions; in
particular a URL carrying a query string after a document-extension path
receives no bonus whenever the query contains no dot. -/
theorem claim_C8_doc_ext_full_url :
    (∀ u : List Char, doc_ext_bonus u = 25/100 ↔ ∃ e ∈ docExts, e.toList <:+ u)
    ∧ ∀ base q : List Char, ('.' ∉ q) → doc_ext_bonus (base ++ '?' :: q) = 0 := by
  constructor
  · intro u
    by_cases h : doc_ext_match u
    · rw [doc_ext_bonus, if_pos h]
      simp only [true_iff, iff_true]
      exact (doc_ext_match_iff u).mp h
    · rw [doc_ext_bonus, if_neg h]
      constructor
      · intro h0
        exfalso
        norm_num at h0
      · intro hex
        exact absurd ((doc_ext_match_iff u).mpr hex) h
  · intro base q hq
    rw [doc_ext_bonus, if_neg]
    intro hmatch
    rcases (doc_ext_match_iff _).mp hmatch with ⟨e, he, hs⟩
    have hq2 : ('?' :: q) <:+ base ++ '?' :: q := List.suffix_append base ('?' :: q)
    rcases List.suffix_or_suffix_of_suffix hs hq2 with h | h
    · have hdot : '.' ∈ e.toList := by
        fin_cases he <;> decide
      have hmem := h.subset hdot
      rw [List.mem_cons] at hmem
      rcases hmem with h1 | h1
      · exact absurd h1 (by decide)
      · exact hq h1
    · have hqm : '?' ∈ e.toList := h.subset (List.mem_cons_self _ _)
      fin_cases he <;> revert hqm <;> decide

theorem claim_C8_doc_ext_full_url_witness :
    ('.' ∉ (("dl=1").toList))
    ∧ doc_ext_bonus ((("https://e.gov/x.pdf").toList) ++ '?' :: (("dl=1").toList)) = 0 :=
  ⟨by decide, claim_C8_doc_ext_full_url.2 (("https://e.gov/x.pdf").toList)
    (("dl=1").toList) (by decide)⟩

/-- Claim C8 counterexample: for the URL
`https://example.gov/budget.pdf?download=1`, the path component (per the
urlparse model) ends in `.pdf`, yet the scorer (with an empty keyword set,
empty text/context, no contact substring) returns 0 — the 0.25 bonus did not
fire, so the claimed "bonus iff the URL path ends in a document extension"
fails on this input. -/
theorem claim_C8_counterexample :
    doc_ext_match (((url_split (("https://example.gov/budget.pdf?download=1"))).2.1).toList)
        = true
    ∧ calculate_relevance_score []
        { url := ("https://example.gov/budget.pdf?download=1"),
          text := (""), context := ("") } = 0 := by
  decide

/-! ## Claim C6: refiner response-line parsing -/

lemma splitDash_cons_ne (x : Char) (xs : List Char) (hx : x ≠ ' ') :
    splitDash (x :: xs) = match splitDash xs with
      | [] => [[x]]
      | w :: ws => (x :: w) :: ws := by
  rw [splitDash.eq_def]
  split
  · rename_i v rest heq
    rw [List.cons.injEq] at heq
    exact absurd heq.1 hx
  · rename_i v2 y ys hnc heq
    injection heq with h1 h2
    subst h1
    subst h2
    rfl
  · rename_i v heq
    exact absurd heq (by simp)

lemma removeLinkToken_ne (x : Char) (xs : List Char) (hx : x ≠ 'L') :
    removeLinkToken (x :: xs) = x :: removeLinkToken xs := by
  rw [removeLinkToken.eq_def]
  split
  · rename_i rest heq
    rw [List.cons.injEq] at heq
    exact absurd heq.1 hx
  · rename_i v2 y ys hnc heq
    injection heq with h1 h2
    subst h1
    subst h2
    rfl
  · rename_i heq
    exact absurd heq (by simp)

lemma removeLinkToken_no_L (s : List Char) (h : ∀ c ∈ s, c ≠ 'L') :
    removeLinkToken s = s := by
  induction s with
  | nil => rfl
  | cons x xs ih =>
    rw [removeLinkToken_ne x xs (h x (List.mem_cons_self _ _)),
      ih (fun c hc => h c (List.mem_cons_of_mem _ hc))]

lemma splitDash_no_sep (s : List Char)
    (h : listContainsSub ((" - ").toList) s = false) : splitDash s = [s] := by
  induction s with
  | nil => rfl
  | cons x xs ih =>
    have hx : listStartsWith ((" - ").toList) (x :: xs) = false := by
      rcases Bool.or_eq_false_iff.mp (by simpa [listContainsSub] using h) with ⟨h1, _⟩
      exact h1
    have hxs : listContainsSub ((" - ").toList) xs = false := by
      rcases Bool.or_eq_false_iff.mp (by simpa [listContainsSub] using h) with ⟨_, h2⟩
      exact h2
    by_cases hsp : x = ' '
    · subst hsp
      rw [splitDash.eq_def]
      split
      · rename_i v rest heq
        exfalso
        injection heq with _ h2
        rw [h2] at hx
        simp [listStartsWith] at hx
      · rename_i v2 y ys hnc heq
        injection heq with h1 h2
        subst h1
        subst h2
        rw [ih hxs]
      · rename_i v heq
        exact absurd heq (by simp)
    · rw [splitDash_cons_ne x xs hsp, ih hxs]

lemma listStartsWith_append (p r : List Char) : listStartsWith p (p ++ r) = true := by
  induction p with
  | nil => rfl
  | cons x xs ih => simp [listStartsWith, ih]

lemma contains_of_startsWith (n s : List Char) (h : listStartsWith n s = true) :
    listContainsSub n s = true := by
  cases s with
  | nil =>
    cases n with
    | nil => rfl
    | cons y ys => simp [listStartsWith] at h
  | cons x xs => simp [listContainsSub, h]

lemma contains_append_left (n a s : List Char) (h : listContainsSub n s = true) :
    listContainsSub n (a ++ s) = true := by
  induction a with
  | nil => exact h
  | cons x xs ih => simp [listContainsSub, ih]

lemma splitDash_sep_append (a b : List Char) (h : ∀ x ∈ a, x ≠ ' ') :
    splitDash (a ++ ' ' :: '-' :: ' ' :: b) = a :: splitDash b := by
  induction a with
  | nil => rfl
  | cons x xs ih =>
    rw [List.cons_append, splitDash_cons_ne x _ (h x (List.mem_cons_self _ _)),
      ih (fun c hc => h c (List.mem_cons_of_mem _ hc))]

lemma splitChar_no_sep (c : Char) (s : List Char) (h : ∀ x ∈ s, (x == c) = false) :
    splitChar c s = [s] := by
  induction s with
  | nil => rfl
  | cons x xs ih =>
    simp [splitChar, h x (List.mem_cons_self _ _),
      ih (fun y hy => h y (List.mem_cons_of_mem _ hy))]

lemma splitChar_sep_append (c : Char) (a b : List Char)
    (h : ∀ x ∈ a, (x == c) = false) :
    splitChar c (a ++ c :: b) = a :: splitChar c b := by
  induction a with
  | nil => simp [splitChar]
  | cons x xs ih =>
    have hne := ih (fun y hy => h y (List.mem_cons_of_mem _ hy))
    simp [splitChar, h x (List.mem_cons_self _ _), hne]

lemma dropWhile_eq_self_of_head (p : Char → Bool) (s : List Char)
    (h : ∀ c, s.head? = some c → p c = false) : s.dropWhile p = s := by
  cases s with
  | nil => rfl
  | cons x xs => simp [List.dropWhile_cons, h x rfl]

lemma pyStrip_eq_self (s : List Char)
    (h1 : ∀ c, s.head? = some c → isPyWs c = false)
    (h2 : ∀ c, s.reverse.head? = some c → isPyWs c = false) :
    pyStrip s = s := by
  unfold pyStrip
  rw [dropWhile_eq_self_of_head _ _ h1, dropWhile_eq_self_of_head _ _ h2,
    List.reverse_reverse]

lemma pyStrip_space_cons (rest : List Char)
    (h1 : ∀ c, rest.head? = some c → isPyWs c = false)
    (h2 : ∀ c, rest.reverse.head? = some c → isPyWs c = false) :
    pyStrip (' ' :: rest) = rest := by
  unfold pyStrip
  rw [List.dropWhile_cons]
  simp only [show isPyWs ' ' = true from rfl, if_true]
  rw [dropWhile_eq_self_of_head _ _ h1, dropWhile_eq_self_of_head _ _ h2,
    List.reverse_reverse]

lemma not_ws_of_digit {c : Char} (h : c.isDigit = true) : isPyWs c = false := by
  by_contra hc
  rw [Bool.not_eq_false] at hc
  simp only [isPyWs, Bool.or_eq_true, beq_iff_eq] at hc
  rcases hc with ((((h1 | h1) | h1) | h1) | h1) | h1 <;> subst h1 <;>
    exact absurd h (by decide)

lemma ne_colon_of_digit {c : Char} (h : c.isDigit = true) : (c == ':') = false := by
  by_contra hc
  rw [Bool.not_eq_false, beq_iff_eq] at hc
  subst hc
  exact absurd h (by decide)

lemma ne_L_of_digit {c : Char} (h : c.isDigit = true) : c ≠ 'L' := by
  intro hc
  subst hc
  exact absurd h (by decide)

lemma listUpdate_listUpdate (l : List α) (i : Nat) (f g : α → α) :
    listUpdate (listUpdate l i f) i g = listUpdate l i (fun x => g (f x)) := by
  induction l generalizing i with
  | nil => rfl
  | cons x xs ih =>
    cases i with
    | zero => rfl
    | succ j => simp [listUpdate, ih]

lemma listUpdate_getD_ne (l : List α) (i j : Nat) (f : α → α) (d : α) (h : j ≠ i) :
    (listUpdate l i f).getD j d = l.getD j d := by
  induction l generalizing i j with
  | nil => rfl
  | cons x xs ih =>
    cases i with
    | zero =>
      cases j with
      | zero => exact absurd rfl h
      | succ k => rfl
    | succ i2 =>
      cases j with
      | zero => rfl
      | succ k => simpa [listUpdate] using ih i2 k (fun hk => h (by rw [hk]))

lemma ne_space_of_not_ws {c : Char} (h : isPyWs c = false) : c ≠ ' ' := by
  intro hc
  subst hc
  exact absurd h (by decide)

lemma beq_colon_false_of_ne {c : Char} (h : c ≠ ':') : (c == ':') = false :=
  beq_eq_false_iff_ne.mpr h

/-- A refiner response line of the shape `Link <n>: <score> - <reason>`. -/
def response_line (nStr scoreStr reason : List Char) : List Char :=
  ((("Link ").toList) ++ nStr) ++ ':' :: ' ' :: (scoreStr ++ ' ' :: '-' :: ' ' :: reason)

/-- Claim C6: a well-formed response line `Link <n>: <score> - <reason>`
updates a link exactly when the 1-indexed number n indexes the batch and the
parsed score lies in [0, 1]; an accepted line overwrites that link's
`relevance_score` and attaches the reason as `llm_reason`; lines not of the
expected shape change nothing; links other than the targeted one are left
untouched. -/
theorem claim_C6_response_line_parsing
    (links : List Link) (nStr scoreStr reason : List Char) (n : Int) (q : ℚ)
    (hnum : pyInt nStr = some n)
    (hdig : allDigits nStr = true)
    (hnne : nStr ≠ [])
    (hq : pyFloat scoreStr = some q)
    (hsws : ∀ c ∈ scoreStr, isPyWs c = false)
    (hscol : ∀ c ∈ scoreStr, c ≠ ':')
    (hsne : scoreStr ≠ [])
    (hrcol : ∀ c ∈ reason, c ≠ ':')
    (hrsep : listContainsSub ((" - ").toList) reason = false)
    (hrne : reason ≠ [])
    (hrh0 : isPyWs (reason.headD 'a') = false)
    (hrl0 : isPyWs (reason.reverse.headD 'a') = false) :
    (apply_response_line links (response_line nStr scoreStr reason) =
      if 1 ≤ n ∧ n ≤ (links.length : Int) ∧ 0 ≤ q ∧ q ≤ 1 then
        listUpdate links (n - 1).toNat
          (fun l => { l with relevance_score := q,
                             llm_reason := some (String.mk reason) })
      else links)
    ∧ (∀ other : List Char,
        listStartsWith ((("Link ").toList)) other = false →
          apply_response_line links other = links)
    ∧ (∀ (j : Nat) (d : Link), j ≠ (n - 1).toNat →
        (apply_response_line links (response_line nStr scoreStr reason)).getD j d
          = links.getD j d) := by
  have hnd : ∀ c ∈ nStr, c.isDigit = true := by
    intro c hc
    exact List.all_eq_true.mp hdig c hc
  have hrh : ∀ c, reason.head? = some c → isPyWs c = false := by
    intro c hc
    cases hrev : reason with
    | nil => rw [hrev] at hc; simp at hc
    | cons x xs =>
      rw [hrev, List.head?_cons] at hc
      injection hc with h6
      subst h6
      rw [hrev] at hrh0
      exact hrh0
  have hrl : ∀ c, reason.reverse.head? = some c → isPyWs c = false := by
    intro c hc
    cases hrev : reason.reverse with
    | nil => rw [hrev] at hc; simp at hc
    | cons x xs =>
      rw [hrev, List.head?_cons] at hc
      injection hc with h6
      subst h6
      rw [hrev] at hrl0
      exact hrl0
  -- the two halves of the colon split
  have hp0col : ∀ x ∈ ((("Link ").toList) ++ nStr), (x == ':') = false := by
    intro x hx
    rw [List.mem_append] at hx
    rcases hx with hx | hx
    · have hx2 : x ∈ ['L', 'i', 'n', 'k', ' '] := hx
      fin_cases hx2 <;> decide
    · exact ne_colon_of_digit (hnd x hx)
  have hp1col : ∀ x ∈ ' ' :: (scoreStr ++ ' ' :: '-' :: ' ' :: reason),
      (x == ':') = false := by
    intro x hx
    rw [List.mem_cons] at hx
    rcases hx with hx | hx
    · subst hx; decide
    · rw [List.mem_append] at hx
      rcases hx with hx | hx
      · exact beq_colon_false_of_ne (hscol x hx)
      · rw [List.mem_cons] at hx
        rcases hx with hx | hx
        · subst hx; decide
        · rw [List.mem_cons] at hx
          rcases hx with hx | hx
          · subst hx; decide
          · rw [List.mem_cons] at hx
            rcases hx with hx | hx
            · subst hx; decide
            · exact beq_colon_false_of_ne (hrcol x hx)
  have hparts : splitChar ':' (response_line nStr scoreStr reason) =
      [(("Link ").toList) ++ nStr,
       ' ' :: (scoreStr ++ ' ' :: '-' :: ' ' :: reason)] := by
    unfold response_line
    rw [splitChar_sep_append ':' _ _ hp0col,
      splitChar_no_sep ':' _ hp1col]
  -- stripping the number part
  have hstrip0 : pyStrip ((("Link ").toList) ++ nStr) = (("Link ").toList) ++ nStr := by
    apply pyStrip_eq_self
    · intro c hc
      have : c = 'L' := by
        have h5 : ((("Link ").toList) ++ nStr).head? = some 'L' := rfl
        rw [h5] at hc
        injection hc with h6
        exact h6.symm
      subst this
      decide
    · intro c hc
      rw [List.reverse_append] at hc
      rw [List.head?_append_of_ne_nil nStr.reverse (by simpa using hnne)] at hc
      have hm : c ∈ nStr := by
        have h9 := List.mem_of_mem_head? hc
        rwa [List.mem_reverse] at h9
      exact not_ws_of_digit (hnd c hm)
  have hrm : removeLinkToken ((("Link ").toList) ++ nStr) = nStr := by
    have h1 : removeLinkToken ((("Link ").toList) ++ nStr) = removeLinkToken nStr := rfl
    rw [h1]
    exact removeLinkToken_no_L nStr (fun c hc => ne_L_of_digit (hnd c hc))
  -- stripping the score part
  have hs_head : ∀ c, scoreStr.head? = some c → isPyWs c = false := by
    intro c hc
    exact hsws c (List.mem_of_mem_head? hc)
  have hs_rev : ∀ c, scoreStr.reverse.head? = some c → isPyWs c = false := by
    intro c hc
    have := List.mem_of_mem_head? hc
    rw [List.mem_reverse] at this
    exact hsws c this
  have hstrip1 : pyStrip (' ' :: (scoreStr ++ ' ' :: '-' :: ' ' :: reason))
      = scoreStr ++ ' ' :: '-' :: ' ' :: reason := by
    apply pyStrip_space_cons
    · intro c hc
      cases hss : scoreStr with
      | nil => exact absurd hss hsne
      | cons y ys =>
        rw [hss] at hc
        rw [List.cons_append, List.head?_cons] at hc
        injection hc with h6
        exact hsws c (by rw [hss, ← h6]; exact List.mem_cons_self _ _)
    · intro c hc
      rw [List.reverse_append] at hc
      rw [List.head?_append_of_ne_nil (' ' :: '-' :: ' ' :: reason).reverse
        (by simp)] at hc
      have h7 : (' ' :: '-' :: ' ' :: reason).reverse
          = reason.reverse ++ [' ', '-', ' '] := by simp
      rw [h7] at hc
      rw [List.head?_append_of_ne_nil reason.reverse (by simpa using hrne)] at hc
      exact hrl c hc
  have hcontains : listContainsSub ((" - ").toList)
      (scoreStr ++ ' ' :: '-' :: ' ' :: reason) = true := by
    apply contains_append_left
    apply contains_of_startsWith
    simp [listStartsWith]
  have hdash : splitDash (scoreStr ++ ' ' :: '-' :: ' ' :: reason)
      = scoreStr :: splitDash reason := by
    exact splitDash_sep_append scoreStr reason
      (fun c hc => ne_space_of_not_ws (hsws c hc))
  have hdashr : splitDash reason = [reason] := splitDash_no_sep reason hrsep
  have hstrip2 : pyStrip scoreStr = scoreStr := pyStrip_eq_self scoreStr hs_head hs_rev
  have hstrip3 : pyStrip reason = reason := pyStrip_eq_self reason hrh hrl
  have hsw : listStartsWith ((("Link ").toList)) (response_line nStr scoreStr reason)
      = true := by
    unfold response_line
    rw [List.append_assoc]
    exact listStartsWith_append _ _
  have hany : (response_line nStr scoreStr reason).any (· == ':') = true := by
    unfold response_line
    rw [List.any_append]
    simp
  have hmain : apply_response_line links (response_line nStr scoreStr reason) =
      if 1 ≤ n ∧ n ≤ (links.length : Int) ∧ 0 ≤ q ∧ q ≤ 1 then
        listUpdate links (n - 1).toNat
          (fun l => { l with relevance_score := q,
                             llm_reason := some (String.mk reason) })
      else links := by
    rw [apply_response_line, if_pos ⟨hsw, hany⟩, hparts]
    simp only [List.getD_cons_zero, List.getD_cons_succ, hstrip0, hrm, hnum,
      hstrip1, hcontains, hdash, hdashr, hstrip2, hq, hstrip3,
      eq_self_iff_true, if_true]
    by_cases hcond : 1 ≤ n ∧ n ≤ (links.length : Int) ∧ 0 ≤ q ∧ q ≤ 1
    · rw [if_pos hcond,
        if_pos (show (0 : Int) ≤ n - 1 ∧ n - 1 < (links.length : Int)
            ∧ 0 ≤ q ∧ q ≤ 1 from
          ⟨by omega, by omega, hcond.2.2.1, hcond.2.2.2⟩),
        listUpdate_listUpdate]
    · rw [if_neg hcond,
        if_neg (show ¬ ((0 : Int) ≤ n - 1 ∧ n - 1 < (links.length : Int)
            ∧ 0 ≤ q ∧ q ≤ 1) from
          fun hc => hcond ⟨by omega, by omega, hc.2.2.1, hc.2.2.2⟩)]
  refine ⟨hmain, ?_, ?_⟩
  · intro other hother
    rw [apply_response_line]
    rw [if_neg]
    intro hc
    rw [hother] at hc
    exact Bool.false_ne_true hc.1
  · intro j d hj
    rw [hmain]
    by_cases hcond : 1 ≤ n ∧ n ≤ (links.length : Int) ∧ 0 ≤ q ∧ q ≤ 1
    · rw [if_pos hcond]
      exact listUpdate_getD_ne links _ j _ d hj
    · rw [if_neg hcond]

def c6_batch : List Link :=
  [{ url := ("https://x.gov/b"), text := ("b"), context := ("c"),
     relevance_score := 3/10 }]

theorem claim_C6_response_line_parsing_witness :
    (pyInt (("1").toList) = some 1 ∧ pyFloat (("0.9").toList) = some (9/10))
    ∧ apply_response_line c6_batch
        (response_line (("1").toList) (("0.9").toList)
          (("matches budget keyword").toList))
      = if 1 ≤ (1 : Int) ∧ (1 : Int) ≤ (c6_batch.length : Int)
            ∧ 0 ≤ (9/10 : ℚ) ∧ (9/10 : ℚ) ≤ 1 then
          listUpdate c6_batch ((1 : Int) - 1).toNat
            (fun l => { l with relevance_score := (9/10 : ℚ),
                               llm_reason :=
                                 some (String.mk (("matches budget keyword").toList)) })
        else c6_batch :=
  ⟨⟨by decide, by decide⟩,
   (claim_C6_response_line_parsing c6_batch (("1").toList) (("0.9").toList)
      (("matches budget keyword").toList) 1 (9/10)
      (by decide) (by decide) (by decide) (by decide) (by decide) (by decide)
      (by decide) (by decide) (by decide) (by decide) (by decide) (by decide)).1⟩

/-! ## Crawl-state lemmas for claims C3, C4, C5, C10 -/

lemma scrape_snd (G : Graph) (cfg : Config) (url : String) (depth : Nat)
    (s : CrawlState) :
    (scrape G cfg url depth s).2 =
      if cfg.max_depth < depth ∨ url ∈ s.scraper_visited then s
      else { s with scraper_visited := s.scraper_visited ++ [url],
                    fetch_log := s.fetch_log ++ [url] } := by
  unfold scrape
  split
  · rfl
  · cases hfp : fetch_page G url <;> rfl

lemma process_url_snd_proj {α : Type} (G : Graph) (cfg : Config)
    (refine : List Link → List Link) (url : String) (depth : Nat) (s : CrawlState)
    (f : CrawlState → α) (hf : ∀ st db2, f { st with db := db2 } = f st) :
    f ((process_url G cfg refine url depth s).2) = f ((scrape G cfg url depth s).2) := by
  unfold process_url
  dsimp only
  simp only [apply_ite f, hf, ite_self]

lemma process_url_snd_fields (G : Graph) (cfg : Config)
    (refine : List Link → List Link) (url : String) (depth : Nat) (s : CrawlState) :
    ((process_url G cfg refine url depth s).2).processed
        = ((scrape G cfg url depth s).2).processed
    ∧ ((process_url G cfg refine url depth s).2).scraper_visited
        = ((scrape G cfg url depth s).2).scraper_visited
    ∧ ((process_url G cfg refine url depth s).2).fetch_log
        = ((scrape G cfg url depth s).2).fetch_log
    ∧ ((process_url G cfg refine url depth s).2).total
        = ((scrape G cfg url depth s).2).total :=
  ⟨process_url_snd_proj G cfg refine url depth s (fun st => st.processed)
      (fun _ _ => rfl),
   process_url_snd_proj G cfg refine url depth s (fun st => st.scraper_visited)
      (fun _ _ => rfl),
   process_url_snd_proj G cfg refine url depth s (fun st => st.fetch_log)
      (fun _ _ => rfl),
   process_url_snd_proj G cfg refine url depth s (fun st => st.total)
      (fun _ _ => rfl)⟩

lemma rp_succ (G : Graph) (cfg : Config) (refine : List Link → List Link)
    (f : Nat) (url : String) (depth : Nat) (s : CrawlState) :
    recursive_process G cfg refine (f + 1) url depth s =
      if cfg.max_depth < depth ∨ url ∈ s.processed then some s
      else
        let s1 : CrawlState := { s with processed := s.processed ++ [url] }
        let pr := process_url G cfg refine url depth s1
        let s3 : CrawlState := { pr.2 with total := pr.2.total + pr.1.length }
        let follow_threshold : ℚ := pyMax (7/10) (cfg.min_score_threshold + 1/10)
        let to_follow0 :=
          pr.1.filter (fun l => decide (follow_threshold ≤ l.relevance_score))
        let to_follow := if 5 < to_follow0.length then to_follow0.take 5 else to_follow0
        List.foldlM
          (fun st l => recursive_process G cfg refine f l.url (depth + 1) st)
          s3 to_follow := rfl

/-- Relation between the crawl state at entry and at exit of a recursion
subtree: the run-local and scraper sets only grow by appending, and every
fetch logged during the subtree was of a URL not already visited at entry. -/
def StepRel (s s2 : CrawlState) : Prop :=
  (∃ tp, s2.processed = s.processed ++ tp)
  ∧ (∃ tv, s2.scraper_visited = s.scraper_visited ++ tv)
  ∧ (∃ tf, s2.fetch_log = s.fetch_log ++ tf)
  ∧ (∀ u ∈ s2.fetch_log, u ∈ s.fetch_log ∨ u ∉ s.scraper_visited)

/-- The three trackers of a fresh run march in lockstep: the orchestrator's
processed set, the scraper's visited set and the fetch log coincide and are
duplicate-free. -/
def crawlInv (s : CrawlState) : Prop :=
  s.processed = s.scraper_visited ∧ s.scraper_visited = s.fetch_log
    ∧ s.processed.Nodup

lemma StepRel.rfl (s : CrawlState) : StepRel s s :=
  ⟨⟨[], by simp⟩, ⟨[], by simp⟩, ⟨[], by simp⟩, fun u hu => Or.inl hu⟩

lemma StepRel.trans {a b c : CrawlState} (h1 : StepRel a b) (h2 : StepRel b c) :
    StepRel a c := by
  obtain ⟨⟨tp1, hp1⟩, ⟨tv1, hv1⟩, ⟨tf1, hf1⟩, hlog1⟩ := h1
  obtain ⟨⟨tp2, hp2⟩, ⟨tv2, hv2⟩, ⟨tf2, hf2⟩, hlog2⟩ := h2
  refine ⟨⟨tp1 ++ tp2, by rw [hp2, hp1, List.append_assoc]⟩,
    ⟨tv1 ++ tv2, by rw [hv2, hv1, List.append_assoc]⟩,
    ⟨tf1 ++ tf2, by rw [hf2, hf1, List.append_assoc]⟩, ?_⟩
  intro u hu
  rcases hlog2 u hu with h | h
  · exact hlog1 u h
  · right
    intro hmem
    exact h (by rw [hv1]; exact List.mem_append_left _ hmem)

lemma rp_step_state (G : Graph) (cfg : Config) (refine : List Link → List Link)
    (url : String) (depth : Nat) (s : CrawlState) (hd : ¬ cfg.max_depth < depth) :
    ((process_url G cfg refine url depth
        { s with processed := s.processed ++ [url] }).2).processed
      = s.processed ++ [url]
    ∧ ((url ∈ s.scraper_visited
          ∧ ((process_url G cfg refine url depth
                { s with processed := s.processed ++ [url] }).2).scraper_visited
              = s.scraper_visited
          ∧ ((process_url G cfg refine url depth
                { s with processed := s.processed ++ [url] }).2).fetch_log
              = s.fetch_log)
       ∨ (url ∉ s.scraper_visited
          ∧ ((process_url G cfg refine url depth
                { s with processed := s.processed ++ [url] }).2).scraper_visited
              = s.scraper_visited ++ [url]
          ∧ ((process_url G cfg refine url depth
                { s with processed := s.processed ++ [url] }).2).fetch_log
              = s.fetch_log ++ [url])) := by
  obtain ⟨hp, hv, hf, ht⟩ := process_url_snd_fields G cfg refine url depth
    { s with processed := s.processed ++ [url] }
  rw [scrape_snd] at hp hv hf
  by_cases hvm : url ∈ s.scraper_visited
  · have hc : cfg.max_depth < depth
        ∨ url ∈ ({ s with processed := s.processed ++ [url] } : CrawlState).scraper_visited :=
      Or.inr hvm
    rw [if_pos hc] at hp hv hf
    exact ⟨hp, Or.inl ⟨hvm, hv, hf⟩⟩
  · have hc : ¬ (cfg.max_depth < depth
        ∨ url ∈ ({ s with processed := s.processed ++ [url] } : CrawlState).scraper_visited) := by
      intro h
      rcases h with h | h
      · exact hd h
      · exact hvm h
    rw [if_neg hc] at hp hv hf
    exact ⟨hp, Or.inr ⟨hvm, hv, hf⟩⟩

lemma rp_bundle (G : Graph) (cfg : Config) (refine : List Link → List Link) :
    ∀ fuel : Nat,
      (∀ url depth s, cfg.max_depth + 1 - depth < fuel →
        (recursive_process G cfg refine fuel url depth s).isSome = true)
      ∧ (∀ url depth s s2,
          recursive_process G cfg refine fuel url depth s = some s2 →
          StepRel s s2 ∧ (crawlInv s → crawlInv s2)
          ∧ (¬ cfg.max_depth < depth → url ∉ s.processed → url ∈ s2.processed)) := by
  intro fuel
  induction fuel with
  | zero =>
    constructor
    · intro url depth s hf
      omega
    · intro url depth s s2 h
      simp [recursive_process] at h
  | succ f ih =>
    constructor
    · intro url depth s hfuel
      rw [rp_succ]
      split
      · rfl
      · rename_i hguard
        obtain ⟨hd, hv⟩ := not_or.mp hguard
        dsimp only
        have key : ∀ (ls : List Link) (st : CrawlState),
            (List.foldlM
              (fun st l => recursive_process G cfg refine f l.url (depth + 1) st)
              st ls).isSome = true := by
          intro ls
          induction ls with
          | nil => intro st; rfl
          | cons l rest ihl =>
            intro st
            have h1 := ih.1 l.url (depth + 1) st (by omega)
            rw [List.foldlM_cons]
            cases heq : recursive_process G cfg refine f l.url (depth + 1) st with
            | none => rw [heq] at h1; exact absurd h1 (by simp)
            | some st2 => exact ihl st2
        exact key _ _
    · intro url depth s s2 hrun
      rw [rp_succ] at hrun
      split at hrun
      · rename_i hguard
        injection hrun with h2
        subst h2
        refine ⟨StepRel.rfl s, fun hq => hq, ?_⟩
        intro hd hv
        rcases hguard with h | h
        · exact absurd h hd
        · exact absurd h hv
      · rename_i hguard
        obtain ⟨hd, hv⟩ := not_or.mp hguard
        dsimp only at hrun
        obtain ⟨hsp, hcase⟩ := rp_step_state G cfg refine url depth s hd
        have foldkey : ∀ (ls : List Link) (st st2 : CrawlState),
            List.foldlM
              (fun st l => recursive_process G cfg refine f l.url (depth + 1) st)
              st ls = some st2 →
            StepRel st st2 ∧ (crawlInv st → crawlInv st2) := by
          intro ls
          induction ls with
          | nil =>
            intro st st2 h
            rw [List.foldlM_nil] at h
            injection h with h2
            subst h2
            exact ⟨StepRel.rfl st, fun hq => hq⟩
          | cons l rest ihl =>
            intro st st2 h
            rw [List.foldlM_cons] at h
            cases heq : recursive_process G cfg refine f l.url (depth + 1) st with
            | none => rw [heq] at h; exact absurd h (by simp)
            | some stm =>
              rw [heq] at h
              have hb1 := (ih.2) l.url (depth + 1) st stm heq
              have hb2 := ihl stm st2 h
              exact ⟨StepRel.trans hb1.1 hb2.1, fun hq => hb2.2 (hb1.2.1 hq)⟩
        have hres := foldkey _ _ _ hrun
        have hsr13 : StepRel s
            { (process_url G cfg refine url depth
                { s with processed := s.processed ++ [url] }).2 with
              total := (process_url G cfg refine url depth
                  { s with processed := s.processed ++ [url] }).2.total
                + (process_url G cfg refine url depth
                    { s with processed := s.processed ++ [url] }).1.length } := by
          refine ⟨⟨[url], hsp⟩, ?_, ?_, ?_⟩
          · rcases hcase with h | h
            · exact ⟨[], by rw [h.2.1]; simp⟩
            · exact ⟨[url], h.2.1⟩
          · rcases hcase with h | h
            · exact ⟨[], by rw [h.2.2]; simp⟩
            · exact ⟨[url], h.2.2⟩
          · intro u hu
            rcases hcase with h | h
            · rw [h.2.2] at hu
              exact Or.inl hu
            · rw [h.2.2, List.mem_append] at hu
              rcases hu with hu | hu
              · exact Or.inl hu
              · right
                rw [List.mem_singleton] at hu
                subst hu
                exact h.1
        have hinv13 : crawlInv s →
            crawlInv
              { (process_url G cfg refine url depth
                  { s with processed := s.processed ++ [url] }).2 with
                total := (process_url G cfg refine url depth
                    { s with processed := s.processed ++ [url] }).2.total
                  + (process_url G cfg refine url depth
                      { s with processed := s.processed ++ [url] }).1.length } := by
          intro hq
          obtain ⟨hq1, hq2, hq3⟩ := hq
          rcases hcase with h | h
          · exfalso
            rw [hq1] at hv
            exact hv h.1
          · refine ⟨?_, ?_, ?_⟩
            · show ((process_url G cfg refine url depth
                  { s with processed := s.processed ++ [url] }).2).processed
                = ((process_url G cfg refine url depth
                    { s with processed := s.processed ++ [url] }).2).scraper_visited
              rw [hsp, h.2.1, hq1]
            · show ((process_url G cfg refine url depth
                  { s with processed := s.processed ++ [url] }).2).scraper_visited
                = ((process_url G cfg refine url depth
                    { s with processed := s.processed ++ [url] }).2).fetch_log
              rw [h.2.1, h.2.2, hq2]
            · show ((process_url G cfg refine url depth
                  { s with processed := s.processed ++ [url] }).2).processed.Nodup
              rw [hsp, List.nodup_append]
              refine ⟨hq3, List.nodup_singleton url, ?_⟩
              intro a ha hb
              rw [List.mem_singleton] at hb
              subst hb
              exact hv ha
        refine ⟨StepRel.trans hsr13 hres.1, fun hq => hres.2 (hinv13 hq), ?_⟩
        intro _ _
        obtain ⟨⟨tp, htp⟩, _, _, _⟩ := hres.1
        rw [htp]
        apply List.mem_append_left
        show url ∈ ((process_url G cfg refine url depth
            { s with processed := s.processed ++ [url] }).2).processed
        rw [hsp]
        exact List.mem_append_right _ (List.mem_singleton_self url)

lemma process_url_recursively_eq (G : Graph) (cfg : Config)
    (refine : List Link → List Link) (start : String) (m : MgrState) :
    ∃ s2, recursive_process G cfg refine (cfg.max_depth + 2) start 0
        { scraper_visited := m.scraper_visited, processed := [], total := 0,
          db := m.db, fetch_log := [] } = some s2
      ∧ process_url_recursively G cfg refine start m = s2 := by
  have hterm := (rp_bundle G cfg refine (cfg.max_depth + 2)).1 start 0
    { scraper_visited := m.scraper_visited, processed := [], total := 0,
      db := m.db, fetch_log := [] } (by omega)
  obtain ⟨s2, heq⟩ := Option.isSome_iff_exists.mp hterm
  refine ⟨s2, heq, ?_⟩
  unfold process_url_recursively
  dsimp only
  rw [heq]
  rfl

/-- Claim C3: for any finite link graph and any depth bound, the recursive
run terminates — with fuel exceeding the remaining depth budget the
fuel-instrumented recursion never bottoms out — and the run-local processed
set only grows, strictly so on each non-terminal step. -/
theorem claim_C3_termination (G : Graph) (cfg : Config)
    (refine : List Link → List Link) (fuel : Nat) (url : String) (depth : Nat)
    (s : CrawlState) (h : cfg.max_depth + 1 - depth < fuel) :
    (recursive_process G cfg refine fuel url depth s).isSome = true
    ∧ ∀ s2, recursive_process G cfg refine fuel url depth s = some s2 →
        (∃ t, s2.processed = s.processed ++ t)
        ∧ (¬ cfg.max_depth < depth → url ∉ s.processed → url ∈ s2.processed) :=
  ⟨(rp_bundle G cfg refine fuel).1 url depth s h,
   fun s2 h2 => ⟨((rp_bundle G cfg refine fuel).2 url depth s s2 h2).1.1,
     ((rp_bundle G cfg refine fuel).2 url depth s s2 h2).2.2⟩⟩

def crawl_G0 : Graph :=
  [(("https://a.gov"),
    [{ url := ("https://a.gov/budget.pdf"), text := ("Budget"),
       context := ("Download") }])]

def crawl_cfg0 : Config :=
  { keywords := [("Budget")], max_depth := 1, min_score_threshold := 1/2,
    max_links_per_page := 100, use_llm := false, backing := Backing.inMemory }

def crawl_s0 : CrawlState :=
  { scraper_visited := [], processed := [], total := 0, db := [], fetch_log := [] }

theorem claim_C3_termination_witness :
    (crawl_cfg0.max_depth + 1 - 0 < 3)
    ∧ (recursive_process crawl_G0 crawl_cfg0 id 3 ("https://a.gov") 0
        crawl_s0).isSome = true :=
  ⟨by decide,
   (claim_C3_termination crawl_G0 crawl_cfg0 id 3 ("https://a.gov") 0 crawl_s0
      (by decide)).1⟩

/-- Claim C4: within a single run from a fresh scraper, the scraper's visited
set, the run's processed set and the fetch-attempt log coincide and are
duplicate-free: no URL is fetched twice, and |visited| equals the number of
distinct URLs for which a fetch was attempted (failed fetches included). -/
theorem claim_C4_no_duplicate_fetch (G : Graph) (cfg : Config)
    (refine : List Link → List Link) (start : String) (db0 : List Link) :
    (process_url_recursively G cfg refine start
        { scraper_visited := [], db := db0 }).scraper_visited
      = (process_url_recursively G cfg refine start
          { scraper_visited := [], db := db0 }).fetch_log
    ∧ (process_url_recursively G cfg refine start
        { scraper_visited := [], db := db0 }).fetch_log.Nodup
    ∧ (process_url_recursively G cfg refine start
        { scraper_visited := [], db := db0 }).processed
      = (process_url_recursively G cfg refine start
          { scraper_visited := [], db := db0 }).fetch_log := by
  obtain ⟨s2, heq, hval⟩ :=
    process_url_recursively_eq G cfg refine start { scraper_visited := [], db := db0 }
  have hinv := ((rp_bundle G cfg refine (cfg.max_depth + 2)).2 start 0 _ s2 heq).2.1
    ⟨rfl, rfl, List.nodup_nil⟩
  rw [hval]
  obtain ⟨h1, h2, h3⟩ := hinv
  exact ⟨h2, by rw [← h2, ← h1]; exact h3, h1.trans h2⟩

/-- Claim C10 (amended): each call of `process_url_recursively` does start
from a fresh run-local state (empty processed set, zero total), but the
scraper's visited set persists on the instance across runs — so no URL
already visited by an earlier run on the same instance is EVER fetched by a
later run. -/
theorem claim_C10_visited_persists (G : Graph) (cfg : Config)
    (refine : List Link → List Link) (start : String) (m : MgrState) :
    (∃ s2, recursive_process G cfg refine (cfg.max_depth + 2) start 0
        { scraper_visited := m.scraper_visited, processed := [], total := 0,
          db := m.db, fetch_log := [] } = some s2
      ∧ process_url_recursively G cfg refine start m = s2)
    ∧ ∀ u ∈ (process_url_recursively G cfg refine start m).fetch_log,
        u ∉ m.scraper_visited := by
  refine ⟨process_url_recursively_eq G cfg refine start m, ?_⟩
  obtain ⟨s2, heq, hval⟩ := process_url_recursively_eq G cfg refine start m
  have hsr := ((rp_bundle G cfg refine (cfg.max_depth + 2)).2 start 0 _ s2 heq).1
  intro u hu
  rw [hval] at hu
  rcases hsr.2.2.2 u hu with h | h
  · exact absurd h (List.not_mem_nil u)
  · exact h

theorem claim_C10_visited_persists_witness :
    ("https://a.gov") ∈ (process_url_recursively crawl_G0 crawl_cfg0 id
        ("https://a.gov")
        { scraper_visited := [("https://z.gov")], db := [] }).fetch_log
    ∧ ("https://a.gov")
        ∉ ({ scraper_visited := [("https://z.gov")], db := [] } : MgrState).scraper_visited :=
  ⟨by decide,
   (claim_C10_visited_persists crawl_G0 crawl_cfg0 id ("https://a.gov")
      { scraper_visited := [("https://z.gov")], db := [] }).2
     ("https://a.gov") (by decide)⟩

def c10_m0 : MgrState := { scraper_visited := [], db := [] }

def c10_run1 : CrawlState :=
  process_url_recursively crawl_G0 crawl_cfg0 id ("https://a.gov") c10_m0

def c10_run2 : CrawlState :=
  process_url_recursively crawl_G0 crawl_cfg0 id ("https://a.gov") (mgr_after c10_run1)

/-- Claim C10 counterexample: on the same manager instance, a first run
fetches the seed page and accepts one link, but a second run of the same
seed attempts NO fetch at all and finds zero links, because the scraper's
`visited_urls` is instance state that is never cleared — contradicting the
claim that the visited state is discarded when a run ends so earlier-run
URLs are fetched again. -/
theorem claim_C10_counterexample :
    c10_run1.fetch_log = [("https://a.gov")] ∧ c10_run1.total = 1
    ∧ c10_run2.fetch_log = [] ∧ c10_run2.total = 0 := by
  decide

/-- Claim C5: a non-terminal recursion step recurses, at depth + 1, into
exactly the first 5 (in the accepted list's existing order) of the accepted
links whose score reaches `max(0.7, min_score_threshold + 0.1)`. -/
theorem claim_C5_follow_selection (G : Graph) (cfg : Config)
    (refine : List Link → List Link) (f : Nat) (url : String) (depth : Nat)
    (s : CrawlState) (hd : depth ≤ cfg.max_depth) (hv : url ∉ s.processed) :
    recursive_process G cfg refine (f + 1) url depth s =
      List.foldlM
        (fun st l => recursive_process G cfg refine f l.url (depth + 1) st)
        { (process_url G cfg refine url depth
            { s with processed := s.processed ++ [url] }).2 with
          total := (process_url G cfg refine url depth
              { s with processed := s.processed ++ [url] }).2.total
            + (process_url G cfg refine url depth
                { s with processed := s.processed ++ [url] }).1.length }
        (((process_url G cfg refine url depth
            { s with processed := s.processed ++ [url] }).1.filter
              (fun l => decide (pyMax (7/10) (cfg.min_score_threshold + 1/10)
                ≤ l.relevance_score))).take 5) := by
  rw [rp_succ]
  rw [if_neg (by
    intro hc
    rcases hc with hc | hc
    · omega
    · exact hv hc)]
  dsimp only
  by_cases h5 : 5 < ((process_url G cfg refine url depth
      { s with processed := s.processed ++ [url] }).1.filter
        (fun l => decide (pyMax (7/10) (cfg.min_score_threshold + 1/10)
          ≤ l.relevance_score))).length
  · rw [if_pos h5]
  · rw [if_neg h5, List.take_of_length_le (by omega)]

theorem claim_C5_follow_selection_witness :
    ((0 : Nat) ≤ crawl_cfg0.max_depth ∧ ("https://a.gov") ∉ crawl_s0.processed)
    ∧ recursive_process crawl_G0 crawl_cfg0 id (1 + 1) ("https://a.gov") 0 crawl_s0 =
        List.foldlM
          (fun st l => recursive_process crawl_G0 crawl_cfg0 id 1 l.url (0 + 1) st)
          { (process_url crawl_G0 crawl_cfg0 id ("https://a.gov") 0
              { crawl_s0 with
                processed := crawl_s0.processed ++ [("https://a.gov")] }).2 with
            total := (process_url crawl_G0 crawl_cfg0 id ("https://a.gov") 0
                { crawl_s0 with
                  processed := crawl_s0.processed ++ [("https://a.gov")] }).2.total
              + (process_url crawl_G0 crawl_cfg0 id ("https://a.gov") 0
                  { crawl_s0 with
                    processed := crawl_s0.processed ++ [("https://a.gov")] }).1.length }
          (((process_url crawl_G0 crawl_cfg0 id ("https://a.gov") 0
              { crawl_s0 with
                processed := crawl_s0.processed ++ [("https://a.gov")] }).1.filter
                (fun l => decide (pyMax (7/10) (crawl_cfg0.min_score_threshold + 1/10)
                  ≤ l.relevance_score))).take 5) :=
  ⟨⟨by decide, by decide⟩,
   claim_C5_follow_selection crawl_G0 crawl_cfg0 id 1 ("https://a.gov") 0 crawl_s0
     (by decide) (by decide)⟩
